import Mathlib

/-!
Verification development for the folder-elf-cli repository.

The Go sources (scanner.go, organizer.go, the duplicate handler, main.go) are
shallowly embedded below.  Filesystem interaction is modelled by explicit
state passing: the set of existing file and directory paths is threaded
through each operation, and environment-dependent outcomes (permission
failures, cross-device renames, zip archive contents) are supplied by
oracle functions.  Go `map` iteration order is non-deterministic; the
embedding fixes first-insertion order, which is immaterial to every
property proved here (all are order-insensitive).  `filepath.Join` is
modelled on clean, non-empty path segments as concatenation with "/".
-/

namespace FolderElf

/-! ### String utilities mirroring the Go standard library calls used -/

/-- Substring test on character lists; `containsSub hay sub` mirrors
`strings.Contains(hay, sub)`. -/
def containsSub : List Char → List Char → Bool
  | [], sub => sub.isEmpty
  | h :: t, sub => sub.isPrefixOf (h :: t) || containsSub t sub

/-- Model of Go `strings.Contains`. -/
def strContains (s sub : String) : Bool :=
  containsSub s.data sub.data

/-- Model of Go `strings.ToLower` (ASCII letters, which is all the
compared patterns use), written by structural recursion over the
character list so that concrete instances evaluate. -/
def toLowerStr (s : String) : String :=
  String.mk (s.data.map Char.toLower)

/-- Model of Go `strings.HasPrefix`. -/
def strStartsWith (s pre : String) : Bool :=
  pre.data.isPrefixOf s.data

/-- Suffix of a character list starting at the last dot, empty when no dot
occurs; mirrors the scan `filepath.Ext` performs on a base name (which
contains no path separator). -/
def lastDotSuffix : List Char → List Char
  | [] => []
  | c :: t =>
    let r := lastDotSuffix t
    if r.isEmpty then (if c = '.' then c :: t else []) else r

/-- Model of `strings.ToLower(filepath.Ext(name))` for a base file name. -/
def extOf (name : String) : String :=
  toLowerStr (String.mk (lastDotSuffix name.data))

/-- Characters strictly before the last slash, `none` when no slash occurs. -/
def beforeLastSlash : List Char → Option (List Char)
  | [] => none
  | c :: t =>
    match beforeLastSlash t with
    | some r => some (c :: r)
    | none => if c = '/' then some [] else none

/-- Model of Go `filepath.Dir` on clean paths. -/
def dirOf (p : String) : String :=
  match beforeLastSlash p.data with
  | none => "."
  | some [] => "/"
  | some pre => String.mk pre

/-- Model of Go `filepath.Join` on clean, non-empty segments. -/
def joinPath (a b : String) : String := a ++ "/" ++ b

/-! ### Data model: FileInfo and Scanner (scanner.go) -/

/-- Embedding of the Go struct `FileInfo` (scanner.go).  `LastModified`
is an abstract instant; `time.Time.After` becomes `<` on `Int`. -/
structure FileInfo where
  Path : String
  Name : String
  Size : Int
  Extension : String
  Category : String
  Hash : String
  LastModified : Int
  IsDuplicate : Bool
  IsZip : Bool
deriving DecidableEq, Repr

/-- Embedding of the Go struct `Scanner` (scanner.go).  The two Go maps
become association lists in first-insertion order. -/
structure Scanner where
  Files : List FileInfo
  Duplicates : List (String × List FileInfo)
  Categories : List (String × List FileInfo)
deriving DecidableEq, Repr

/-- Association-list lookup, mirroring a Go map read. -/
def lookupA {β : Type} : List (String × β) → String → Option β
  | [], _ => none
  | (k1, v) :: t, k => if k1 = k then some v else lookupA t k

/-- Files stored in a category map under a key (empty when absent),
mirroring `scanner.Categories[key]`. -/
def findGroup (m : List (String × List FileInfo)) (k : String) : List FileInfo :=
  (lookupA m k).getD []

/-- Append a file to the group of key `k`, creating the group at the end
when the key is new; mirrors `m[k] = append(m[k], f)` on a Go map. -/
def assocAppend : List (String × List FileInfo) → String → FileInfo →
    List (String × List FileInfo)
  | [], k, f => [(k, [f])]
  | (k1, v) :: t, k, f =>
    if k1 = k then (k1, v ++ [f]) :: t else (k1, v) :: assocAppend t k f

/-- Group a list of files by a key function, preserving encounter order,
as the Go code does by appending to map entries while iterating. -/
def groupByKey (key : FileInfo → String) (l : List FileInfo) :
    List (String × List FileInfo) :=
  l.foldl (fun m f => assocAppend m (key f) f) []

/-- Embedding of `Scanner.determineCategory` (scanner.go:142). -/
def determineCategory (ext name : String) : String :=
  if ext ∈ [".jpg", ".jpeg", ".png", ".gif", ".bmp", ".tiff", ".svg", ".webp"] then "Images"
  else if ext ∈ [".pdf", ".doc", ".docx", ".txt", ".rtf", ".odt", ".xls", ".xlsx", ".ppt", ".pptx"] then "Documents"
  else if ext ∈ [".mp4", ".avi", ".mkv", ".mov", ".wmv", ".flv", ".webm"] then "Videos"
  else if ext ∈ [".mp3", ".wav", ".flac", ".aac", ".ogg", ".wma"] then "Music"
  else if ext ∈ [".pkg", ".exe", ".msi", ".deb", ".rpm", ".app"] then "Applications"
  else if ext ∈ [".zip", ".rar", ".7z", ".tar", ".gz", ".bz2"] then "Archives"
  else if ext ∈ [".iso", ".dmg"] then "Disk Images"
  else
    let lowerName := toLowerStr name
    if strContains lowerName "install" || strContains lowerName "setup" then "Applications"
    else if strContains lowerName "manual" || strContains lowerName "guide" then "Documents"
    else "Other"

/-- The archive extensions of `determineCategory`'s "Archives" case. -/
def archiveExts : List String := [".zip", ".rar", ".7z", ".tar", ".gz", ".bz2"]

/-- One regular file met by the directory walk.  `hashResult` abstracts
`calculateFileHash`: `some d` is the digest of the file's bytes (the
hasher is deterministic in content, so equal content gives equal digest),
`none` is a hash failure; `readable` abstracts the
`checkFilePermissions` probe. -/
structure RawFile where
  path : String
  name : String
  size : Int
  mtime : Int
  readable : Bool
  hashResult : Option String
deriving DecidableEq, Repr

/-- Extension stored by the walk: the lower-cased `filepath.Ext`, with
the "no_extension" sentinel of scanner.go:95-97. -/
def scanExt (name : String) : String :=
  if extOf name = "" then "no_extension" else extOf name

/-- Per-file body of `Scanner.ScanDirectory`'s walk callback: skip hidden
files, files inside .app bundles and unreadable files, otherwise build
the `FileInfo` record exactly as scanner.go:94-120 does. -/
def mkRecord (r : RawFile) : Option FileInfo :=
  if strStartsWith r.name "." then none
  else if strContains r.path ".app/Contents/" then none
  else if ¬ r.readable then none
  else
    some { Path := r.path
           Name := r.name
           Size := r.size
           Extension := scanExt r.name
           Category := determineCategory (scanExt r.name) r.name
           Hash := r.hashResult.getD ""
           LastModified := r.mtime
           IsDuplicate := false
           IsZip := scanExt r.name = ".zip" }

/-- Records appended to `Scanner.Files` by the walk, in walk order. -/
def walkRecords (raws : List RawFile) : List FileInfo :=
  raws.filterMap mkRecord

/-- Embedding of the hash grouping in `Scanner.findDuplicates`
(scanner.go:197-204): files with an empty hash are never grouped. -/
def groupByHash (files : List FileInfo) : List (String × List FileInfo) :=
  groupByKey (fun f => f.Hash) (files.filter (fun f => ¬ (f.Hash = "")))

/-- Set `IsDuplicate` on the first file of the list with the given path,
mirroring the inner marking loop of scanner.go:213-218. -/
def markFirst : List FileInfo → String → List FileInfo
  | [], _ => []
  | f :: t, p =>
    if f.Path = p then { f with IsDuplicate := true } :: t else f :: markFirst t p

/-- Mark every member of one duplicate group inside the files list. -/
def markGroup (files : List FileInfo) (g : List FileInfo) : List FileInfo :=
  g.foldl (fun acc f => markFirst acc f.Path) files

/-- Embedding of `Scanner.findDuplicates` (scanner.go:194-233): groups
with at least two members are recorded in `Duplicates` (as the unmarked
copies the Go map holds) and their members are marked in `Files`. -/
def findDuplicates (s : Scanner) : Scanner :=
  let dups := (groupByHash s.Files).filter (fun e => 1 < e.2.length)
  { s with
    Duplicates := s.Duplicates ++ dups
    Files := dups.foldl (fun acc e => markGroup acc e.2) s.Files }

/-- Embedding of `Scanner.ScanDirectory` on the walk's file sequence:
build records, fill the category map during the walk, then run duplicate
detection once. -/
def scanEntries (raws : List RawFile) : Scanner :=
  findDuplicates
    { Files := walkRecords raws
      Duplicates := []
      Categories := groupByKey (fun f => f.Category) (walkRecords raws) }

/-! ### Filesystem state and environment for the organizer and the
duplicate handler.  Only path existence matters to these operations, so
the state is the set of existing file paths and directory paths; content
is modelled separately for the move primitive (C6). -/

/-- Existing paths on disk: regular files and directories. -/
structure FS where
  files : List String
  dirs : List String
deriving DecidableEq, Repr

/-- Insert a path if absent (directory creation is idempotent). -/
def insertIfAbsent (p : String) (l : List String) : List String :=
  if l.contains p then l else p :: l

/-- One entry listed in a zip archive's central directory. -/
structure ZipEntry where
  name : String
  isDir : Bool
  compressed : Nat
  uncompressed : Nat
deriving DecidableEq, Repr

/-- Oracle outcomes of the operating-system calls the organizer and the
duplicate handler perform: permission failures, rename/remove errors and
the contents seen when an archive is stat'ed and opened
(`zipOf p = none` models a stat or open failure). -/
structure OrgEnv where
  mkdirOk : String → Bool
  moveOk : String → String → Bool
  removeOk : String → Bool
  zipOf : String → Option (Nat × List ZipEntry)

/-- Model of `os.Stat` succeeding on a path. -/
def statExists (fs : FS) (p : String) : Bool :=
  fs.files.contains p || fs.dirs.contains p

/-- Model of `os.MkdirAll` succeeding. -/
def mkDirFS (fs : FS) (p : String) : FS :=
  { fs with dirs := insertIfAbsent p fs.dirs }

/-- Model of `os.RemoveAll` on a directory path. -/
def rmDirFS (fs : FS) (p : String) : FS :=
  { fs with dirs := fs.dirs.erase p }

/-- Path-level model of `atomicMove` (organizer.go:97): success is
environment-determined; on success the source path disappears and the
destination path exists (an existing destination is silently replaced,
as `os.Rename` replaces it). -/
def moveFile (env : OrgEnv) (fs : FS) (src dst : String) : FS × Bool :=
  if env.moveOk src dst then
    ({ fs with files := insertIfAbsent dst (fs.files.erase src) }, true)
  else (fs, false)

/-- Model of `os.Remove` on a file (failure leaves the state unchanged). -/
def removeFile (env : OrgEnv) (fs : FS) (p : String) : FS :=
  if env.removeOk p then { fs with files := fs.files.erase p } else fs

/-- One executed relocation, recording whether the destination path
already existed at the moment the move ran. -/
structure MoveRec where
  src : String
  dst : String
  destExisted : Bool
deriving DecidableEq, Repr

/-! ### Organizer (organizer.go) -/

/-- Shared inner loop of `OrganizeFiles`, `OrganizeByDate` and
`OrganizeBySize` (organizer.go:154-187, 240-268, 339-367): per file,
skip duplicates when `checkDup` (only `OrganizeFiles` re-checks, the
other two pre-filter), skip files already in the target folder, skip
when the destination exists, in dry-run only report, otherwise move.
Only executed moves are logged. -/
def moveLoop (env : OrgEnv) (dryRun checkDup : Bool) (targetPath : String) :
    List FileInfo → FS × List MoveRec → FS × List MoveRec
  | [], st => st
  | f :: rest, (fs, log) =>
    if checkDup && f.IsDuplicate then moveLoop env dryRun checkDup targetPath rest (fs, log)
    else if dirOf f.Path = targetPath then moveLoop env dryRun checkDup targetPath rest (fs, log)
    else
      let destPath := joinPath targetPath f.Name
      if statExists fs destPath then moveLoop env dryRun checkDup targetPath rest (fs, log)
      else if dryRun then moveLoop env dryRun checkDup targetPath rest (fs, log)
      else
        let step := moveFile env fs f.Path destPath
        if step.2 then
          moveLoop env dryRun checkDup targetPath rest
            (step.1, log ++ [⟨f.Path, destPath, statExists fs destPath⟩])
        else moveLoop env dryRun checkDup targetPath rest (step.1, log)

/-- Per-category body and loop of `FileOrganizer.OrganizeFiles`
(organizer.go:120-189): create (or in dry-run probe) the category
folder, then run the move loop with the in-loop duplicate check. -/
def orgCatsLoop (env : OrgEnv) (dryRun : Bool) (basePath : String)
    (catMap : List (String × String)) :
    List (String × List FileInfo) → FS × List MoveRec → FS × List MoveRec
  | [], st => st
  | e :: rest, (fs, log) =>
    orgCatsLoop env dryRun basePath catMap rest
      (let categoryPath := joinPath basePath ((lookupA catMap e.1).getD "Other")
       if dryRun then
         if statExists fs categoryPath then
           moveLoop env dryRun true categoryPath e.2 (fs, log)
         else
           if env.mkdirOk (joinPath basePath ".test_permissions") then
             moveLoop env dryRun true categoryPath e.2
               (rmDirFS (mkDirFS fs (joinPath basePath ".test_permissions"))
                 (joinPath basePath ".test_permissions"), log)
           else (fs, log)
       else
         if env.mkdirOk categoryPath then
           moveLoop env dryRun true categoryPath e.2 (mkDirFS fs categoryPath, log)
         else (fs, log))

/-- Embedding of `FileOrganizer.OrganizeFiles` (organizer.go:109-199). -/
def organizeFiles (env : OrgEnv) (fs : FS) (dryRun : Bool) (basePath : String)
    (cats : List (String × List FileInfo)) (catMap : List (String × String)) :
    FS × List MoveRec :=
  orgCatsLoop env dryRun basePath catMap cats (fs, [])

/-- Per-group body and loop of `FileOrganizer.OrganizeByDate`
(organizer.go:226-270). -/
def dateGroupsLoop (env : OrgEnv) (dryRun : Bool) (basePath : String) :
    List (String × List FileInfo) → FS × List MoveRec → FS × List MoveRec
  | [], st => st
  | e :: rest, (fs, log) =>
    dateGroupsLoop env dryRun basePath rest
      (if dryRun then moveLoop env dryRun false (joinPath basePath e.1) e.2 (fs, log)
       else if env.mkdirOk (joinPath basePath e.1) then
         moveLoop env dryRun false (joinPath basePath e.1) e.2
           (mkDirFS fs (joinPath basePath e.1), log)
       else (fs, log))

/-- Embedding of `FileOrganizer.OrganizeByDate` (organizer.go:202-280).
`fmtYM` abstracts `time.Format("2006-01")`; duplicates are filtered out
while building the date groups. -/
def organizeByDate (env : OrgEnv) (fs : FS) (dryRun : Bool) (basePath : String)
    (files : List FileInfo) (fmtYM : Int → String) : FS × List MoveRec :=
  dateGroupsLoop env dryRun basePath
    (groupByKey (fun f => fmtYM f.LastModified)
      (files.filter (fun f => ¬ f.IsDuplicate)))
    (fs, [])

/-- Size buckets of `OrganizeBySize` (organizer.go:292-302) with the -1
sentinel of the Go struct. -/
def sizeCategories : List (String × Int × Int) :=
  [("Tiny", 0, 1048576),
   ("Small", 1048576, 10485760),
   ("Medium", 10485760, 104857600),
   ("Large", 104857600, 1073741824),
   ("Huge", 1073741824, -1)]

/-- Membership test of organizer.go:316-317. -/
def inSizeCat (lo hi : Int) (f : FileInfo) : Bool :=
  (lo = -1 || f.Size ≥ lo) && (hi = -1 || f.Size < hi)

/-- Per-bucket body and loop of `FileOrganizer.OrganizeBySize`
(organizer.go:307-369): collect the non-duplicate files in range, then
create the bucket folder and run the move loop.  A bucket with no files
is skipped before any folder is created. -/
def sizeCatsLoop (env : OrgEnv) (dryRun : Bool) (basePath : String)
    (files : List FileInfo) :
    List (String × Int × Int) → FS × List MoveRec → FS × List MoveRec
  | [], st => st
  | e :: rest, (fs, log) =>
    sizeCatsLoop env dryRun basePath files rest
      (let filesToMove := files.filter
         (fun f => ¬ f.IsDuplicate && inSizeCat e.2.1 e.2.2 f)
       if filesToMove.isEmpty then (fs, log)
       else
         if dryRun then moveLoop env dryRun false (joinPath basePath e.1) filesToMove (fs, log)
         else if env.mkdirOk (joinPath basePath e.1) then
           moveLoop env dryRun false (joinPath basePath e.1) filesToMove
             (mkDirFS fs (joinPath basePath e.1), log)
         else (fs, log))

/-- Embedding of `FileOrganizer.OrganizeBySize` (organizer.go:283-379). -/
def organizeBySize (env : OrgEnv) (fs : FS) (dryRun : Bool) (basePath : String)
    (files : List FileInfo) : FS × List MoveRec :=
  sizeCatsLoop env dryRun basePath files sizeCategories (fs, [])

/-! ### Archive inspection (organizer.go:50-94 and 471-540) -/

/-- Limits of organizer.go:15-18. -/
def maxZipSize : Nat := 104857600

/-- Maximum entry count of organizer.go:17. -/
def maxZipEntries : Nat := 10000

/-- Per-entry loop of `checkZipBomb` (organizer.go:73-91) carrying the
entry count and the running uncompressed total; returns `true` when a
condition fires.  The suspicious-ratio test `compressed/uncompressed <
0.01` is modelled exactly over the rationals as `100 * compressed <
uncompressed` (the Go code compares float64 quotients). -/
def bombLoop : List ZipEntry → Nat → Nat → Bool
  | [], _, _ => false
  | e :: rest, cnt, tot =>
    let cnt1 := cnt + 1
    if maxZipEntries < cnt1 then true
    else if 0 < e.uncompressed && 100 * e.compressed < e.uncompressed
        && 1048576 < e.uncompressed then true
    else
      let tot1 := tot + e.uncompressed
      if maxZipSize * 10 < tot1 then true
      else bombLoop rest cnt1 tot1

/-- Embedding of `FileOrganizer.checkZipBomb` on an archive that was
stat'ed (size `sz`) and opened (entry list `entries`): `true` means the
check returns an error. -/
def checkZipBombFails (sz : Nat) (entries : List ZipEntry) : Bool :=
  maxZipSize < sz || bombLoop entries 0 0

/-- Sequential leader update of organizer.go:507-537: a candidate
replaces the current leader only with a strictly greater count. -/
def selectDominant : List (Nat × String) → Nat → String → String
  | [], _, dom => dom
  | (c, n) :: t, m, dom => if m < c then selectDominant t c n else selectDominant t m dom

/-- Extension buckets of `analyzeZipContents` (organizer.go:488-503). -/
def zipImageExts : List String := [".jpg", ".jpeg", ".png", ".gif", ".bmp", ".tiff", ".svg", ".webp"]

/-- Document extensions counted by `analyzeZipContents`. -/
def zipDocumentExts : List String := [".pdf", ".doc", ".docx", ".txt", ".rtf", ".odt", ".xls", ".xlsx", ".ppt", ".pptx"]

/-- Video extensions counted by `analyzeZipContents`. -/
def zipVideoExts : List String := [".mp4", ".avi", ".mkv", ".mov", ".wmv", ".flv", ".webm"]

/-- Audio extensions counted by `analyzeZipContents`. -/
def zipAudioExts : List String := [".mp3", ".wav", ".flac", ".aac", ".ogg", ".wma"]

/-- Application extensions counted by `analyzeZipContents`. -/
def zipApplicationExts : List String := [".exe", ".msi", ".dmg", ".pkg", ".app", ".deb", ".rpm"]

/-- Font extensions counted by `analyzeZipContents`. -/
def zipFontExts : List String := [".ttf", ".otf", ".woff", ".woff2", ".eot"]

/-- Code and markup extensions counted by `analyzeZipContents`. -/
def zipCodeExts : List String := [".js", ".py", ".java", ".cpp", ".c", ".cs", ".php", ".rb", ".go", ".rs", ".swift", ".kt", ".html", ".css", ".scss", ".sql", ".sh", ".json", ".xml", ".yaml", ".yml"]

/-- Count the non-directory entries whose lower-cased extension lies in
the given bucket, as organizer.go:481-504 tallies them. -/
def countBucket (exts : List String) (entries : List ZipEntry) : Nat :=
  (entries.filter (fun e => ¬ e.isDir && extOf e.name ∈ exts)).length

/-- Embedding of `FileOrganizer.analyzeZipContents` (organizer.go:472-540):
tally the seven buckets over non-directory entries, then run the
sequential leader chain starting from (0, "Other"); the font and code
buckets carry the folder name "Other", exactly as the source assigns. -/
def analyzeZipContents (entries : List ZipEntry) : String :=
  selectDominant
    [(countBucket zipImageExts entries, "Images"),
     (countBucket zipDocumentExts entries, "Documents"),
     (countBucket zipVideoExts entries, "Videos"),
     (countBucket zipAudioExts entries, "Music"),
     (countBucket zipApplicationExts entries, "Applications"),
     (countBucket zipFontExts entries, "Other"),
     (countBucket zipCodeExts entries, "Other")]
    0 "Other"

/-- Embedding of `FileOrganizer.ProcessZipFiles` (organizer.go:382-469):
for each non-duplicate file of the "Archives" category, screen it with
`checkZipBomb`, classify its contents, create the target folder and move
the archive there.  Note the source performs no destination-existence
check before the move. -/
def zipFilesLoop (env : OrgEnv) (dryRun : Bool) (basePath : String)
    (catMap : List (String × String)) :
    List FileInfo → FS × List MoveRec → FS × List MoveRec
  | [], st => st
  | zf :: rest, (fs, log) =>
    zipFilesLoop env dryRun basePath catMap rest
      (if zf.IsDuplicate then (fs, log)
       else
         match env.zipOf zf.Path with
         | none => (fs, log)
         | some (sz, entries) =>
           if checkZipBombFails sz entries then (fs, log)
           else
             let categoryPath := joinPath basePath
               ((lookupA catMap (analyzeZipContents entries)).getD "Other")
             if dryRun then (fs, log)
             else if env.mkdirOk categoryPath then
               let fs1 := mkDirFS fs categoryPath
               let destPath := joinPath categoryPath zf.Name
               if (moveFile env fs1 zf.Path destPath).2 then
                 ((moveFile env fs1 zf.Path destPath).1,
                  log ++ [⟨zf.Path, destPath, statExists fs1 destPath⟩])
               else ((moveFile env fs1 zf.Path destPath).1, log)
             else (fs, log))

/-- Embedding of `FileOrganizer.ProcessZipFiles` (organizer.go:382-469). -/
def processZipFiles (env : OrgEnv) (fs : FS) (dryRun : Bool) (basePath : String)
    (cats : List (String × List FileInfo)) (catMap : List (String × String)) :
    FS × List MoveRec :=
  zipFilesLoop env dryRun basePath catMap (findGroup cats "Archives") (fs, [])

/-- The category-to-folder table of `NewFileOrganizer` (organizer.go:31-40). -/
def defaultCategoryMap : List (String × String) :=
  [("Images", "Images"), ("Documents", "Documents"), ("Videos", "Videos"),
   ("Music", "Music"), ("Applications", "Applications"), ("Archives", "Archives"),
   ("Disk Images", "Disk Images"), ("Other", "Other")]

/-! ### Duplicate handler (duplicates.go, reproduced in the repository's
strategy document) -/

/-- Newest-file selection of duplicates.go (`RemoveDuplicates`,
`MoveDuplicatesToFolder`): start from the first member and replace on a
strictly later modification time. -/
def newestOf (f0 : FileInfo) (files : List FileInfo) : FileInfo :=
  files.foldl (fun best x => if best.LastModified < x.LastModified then x else best) f0

/-- Copy-indicator substrings of `DuplicateHandler.isOriginalFile`. -/
def copyPatterns : List String :=
  [" (1)", " (2)", " (3)", " (4)", " (5)", " (6)", " (7)", " (8)", " (9)", " (10)",
   " copy", " copy (1)", " copy (2)", " copy (3)", " copy (4)", " copy (5)",
   " - copy", " - copy (1)", " - copy (2)", " - copy (3)", " - copy (4)", " - copy (5)",
   "_copy", "_copy(1)", "_copy(2)", "_copy(3)", "_copy(4)", "_copy(5)",
   "-copy", "-copy(1)", "-copy(2)", "-copy(3)", "-copy(4)", "-copy(5)",
   ".copy", ".copy(1)", ".copy(2)", ".copy(3)", ".copy(4)", ".copy(5)",
   " (copy)", " (copy 1)", " (copy 2)", " (copy 3)", " (copy 4)", " (copy 5)",
   "- (copy)", "- (copy 1)", "- (copy 2)", "- (copy 3)", "- (copy 4)", "- (copy 5)",
   "_ (copy)", "_ (copy 1)", "_ (copy 2)", "_ (copy 3)", "_ (copy 4)", "_ (copy 5)",
   " duplicate", " duplicate (1)", " duplicate (2)", " duplicate (3)", " duplicate (4)", " duplicate (5)",
   " - duplicate", " - duplicate (1)", " - duplicate (2)", " - duplicate (3)", " - duplicate (4)", " - duplicate (5)",
   "_duplicate", "_duplicate(1)", "_duplicate(2)", "_duplicate(3)", "_duplicate(4)", "_duplicate(5)",
   "-duplicate", "-duplicate(1)", "-duplicate(2)", "-duplicate(3)", "-duplicate(4)", "-duplicate(5)"]

/-- Embedding of `DuplicateHandler.isOriginalFile`: a name is original
iff its lower-cased form contains none of the copy-indicator patterns. -/
def isOriginalFile (filename : String) : Bool :=
  copyPatterns.all (fun pat => ¬ strContains (toLowerStr filename) pat)

/-- First classification loop of `RemoveDuplicatesByPattern`: the last
looks-original member (if any) becomes the kept original, every
looks-like-copy member is collected in encounter order. -/
def patternPartition (files : List FileInfo) : Option FileInfo × List FileInfo :=
  files.foldl
    (fun acc f =>
      if isOriginalFile f.Name then (some f, acc.2) else (acc.1, acc.2 ++ [f]))
    (none, [])

/-- Embedding of `DuplicateHandler.RemoveDuplicatesByPattern`: when no
member looks original the code falls back to a newest-wins keeper, but
the copy bucket already holds every member from the first loop and the
fallback appends all non-keeper members again, so the removal pass
deletes every member of the group (duplicated entries fail their second
`os.Remove`, which the code absorbs and continues). -/
def removeDuplicatesByPattern (env : OrgEnv) (fs : FS) (dryRun : Bool)
    (dups : List (String × List FileInfo)) : FS :=
  dups.foldl
    (fun fs e =>
      if e.2.length < 2 then fs
      else
        let part := patternPartition e.2
        let copies : List FileInfo :=
          match part.1 with
          | some _ => part.2
          | none =>
            match e.2 with
            | [] => part.2
            | f0 :: _ =>
              let keeper := newestOf f0 e.2
              part.2 ++ e.2.filter (fun f => ¬ (f.Path = keeper.Path))
        copies.foldl
          (fun fs f => if dryRun then fs else removeFile env fs f.Path)
          fs)
    fs

/-- Oracle outcomes of the system calls inside `copyAndDelete` and the
initial `os.Rename` of `atomicMove`.  `truncData` gives the partial
destination content left behind when the stream copy fails midway. -/
structure CopyEnv where
  renameOk : String → String → Bool
  createOk : String → Bool
  copyOk : String → String → Bool
  syncOk : String → Bool
  removeOk : String → Bool
  truncData : String → String

/-- Map from path to file content for the move primitive. -/
def FileMap : Type := List (String × String)

/-- Content lookup (a real filesystem has unique paths; the model's
erase removes every binding of a path to keep that invariant). -/
def readF (fm : FileMap) (p : String) : Option String :=
  lookupA fm p

/-- Delete every binding of a path. -/
def eraseF : FileMap → String → FileMap
  | [], _ => []
  | e :: t, p => if e.1 = p then eraseF t p else e :: eraseF t p

/-- Create or overwrite a path with given content. -/
def writeF (fm : FileMap) (p : String) (data : String) : FileMap :=
  (p, data) :: eraseF fm p

/-- Embedding of `copyAndDelete`: open the source, create the
destination, stream-copy, sync, then delete the source.  Any failing
step returns an error; a failing copy leaves a partial destination and
the source untouched. -/
def copyAndDelete (env : CopyEnv) (fm : FileMap) (src dst : String) :
    FileMap × Bool :=
  match readF fm src with
  | none => (fm, false)
  | some data =>
    if env.createOk dst then
      if env.copyOk src dst then
        if env.syncOk dst then
          if env.removeOk src then (eraseF (writeF fm dst data) src, true)
          else (writeF fm dst data, false)
        else (writeF fm dst data, false)
      else (writeF fm dst (env.truncData data), false)
    else (fm, false)

/-- Embedding of `atomicMove` over file contents: try the rename, fall
back to copy-and-delete when it fails. -/
def atomicMoveF (env : CopyEnv) (fm : FileMap) (src dst : String) :
    FileMap × Bool :=
  match readF fm src with
  | none => copyAndDelete env fm src dst
  | some data =>
    if env.renameOk src dst then (eraseF (writeF fm dst data) src, true)
    else copyAndDelete env fm src dst

/-! ### Derived definitions used in claim statements -/

/-- Greatest count among weighted names. -/
def maxCount (l : List (Nat × String)) : Nat :=
  l.foldr (fun p acc => max p.1 acc) 0

/-- Name of the first pair attaining the greatest count. -/
def firstMaxName (l : List (Nat × String)) (dflt : String) : String :=
  match l.find? (fun p => p.1 = maxCount l) with
  | some p => p.2
  | none => dflt

/-- Specification-side restatement of the archive classifier for the
amended claim C4: the folder of the earliest bucket (in the source's
fixed order, with the font and code buckets carrying the folder name
"Other") that attains the maximum count, and "Other" when every bucket
counts zero. -/
def dominantSpec (entries : List ZipEntry) : String :=
  let counts :=
    [(countBucket zipImageExts entries, "Images"),
     (countBucket zipDocumentExts entries, "Documents"),
     (countBucket zipVideoExts entries, "Videos"),
     (countBucket zipAudioExts entries, "Music"),
     (countBucket zipApplicationExts entries, "Applications"),
     (countBucket zipFontExts entries, "Other"),
     (countBucket zipCodeExts entries, "Other")]
  if maxCount counts = 0 then "Other" else firstMaxName counts "Other"

/-- Record marked as a duplicate. -/
def markDup (f : FileInfo) : FileInfo :=
  { f with IsDuplicate := true }

/-! ### Concrete fixtures for witnesses and counterexamples -/

/-- Environment in which every operating-system call succeeds and no
path is an archive. -/
def envAllOk : OrgEnv :=
  ⟨fun _ => true, fun _ _ => true, fun _ => true, fun _ => none⟩

/-- Tie fixture for C4: one image entry and one document entry. -/
def cxTieEntries : List ZipEntry :=
  [⟨"a.jpg", false, 1, 1⟩, ⟨"b.pdf", false, 1, 1⟩]

/-- Walk fixture for C5: a .rar file. -/
def cxRarRaw : RawFile :=
  ⟨"/d/a.rar", "a.rar", 3, 0, true, some "H"⟩

/-- Duplicate pair for C2 in which both names carry copy indicators. -/
def cxCopyA : FileInfo :=
  ⟨"/d/report copy.txt", "report copy.txt", 3, ".txt", "Documents", "H", 0, true, false⟩

/-- Newer member of the C2 duplicate pair. -/
def cxCopyB : FileInfo :=
  ⟨"/d/report copy (2).txt", "report copy (2).txt", 3, ".txt", "Documents", "H", 5, true, false⟩

/-- Filesystem for the C2 fixture: exactly the two duplicates exist. -/
def cxPatternFS : FS :=
  ⟨["/d/report copy.txt", "/d/report copy (2).txt"], []⟩

/-- Archive record for the C3 counterexample. -/
def cxZipRec : FileInfo :=
  ⟨"/base/arc.zip", "arc.zip", 3, ".zip", "Archives", "HZ", 0, false, true⟩

/-- Environment for the C3 counterexample: the archive opens to a single
small image entry, every other call succeeds. -/
def cxZipEnv : OrgEnv :=
  ⟨fun _ => true, fun _ _ => true, fun _ => true,
   fun p => if p = "/base/arc.zip" then some (10, [⟨"a.jpg", false, 1, 1⟩]) else none⟩

/-- Filesystem for the C3 counterexample: the destination
"/base/Images/arc.zip" already exists before the archive is processed. -/
def cxZipFS : FS :=
  ⟨["/base/arc.zip", "/base/Images/arc.zip"], ["/base"]⟩

/-- Non-duplicate image record used by the C1 witness. -/
def wImgRec : FileInfo :=
  ⟨"/base/x.jpg", "x.jpg", 3, ".jpg", "Images", "H1", 0, false, false⟩

/-- Duplicate-marked record used by the C1 witness. -/
def wDupRec : FileInfo :=
  ⟨"/base/y.jpg", "y.jpg", 3, ".jpg", "Images", "H2", 0, true, false⟩

/-- Category table of the C1 witness scan. -/
def wCats : List (String × List FileInfo) :=
  [("Images", [wImgRec, wDupRec])]

/-- Filesystem of the C1/C9 witnesses. -/
def wFS : FS :=
  ⟨["/base/x.jpg", "/base/y.jpg"], ["/base"]⟩

/-- Copy environment in which every call succeeds and nothing truncates. -/
def copyEnvOk : CopyEnv :=
  ⟨fun _ _ => true, fun _ => true, fun _ _ => true, fun _ => true, fun _ => true, fun d => d⟩

/-- Copy environment whose rename and stream copy fail, leaving an empty
partial destination. -/
def copyEnvBadCopy : CopyEnv :=
  ⟨fun _ _ => false, fun _ => true, fun _ _ => false, fun _ => true, fun _ => true, fun _ => ""⟩

/-- Content map for the C6 witness: one file "a" holding "X". -/
def wFileMap : FileMap :=
  [("/d/a", "X")]

/-- Walk fixture for the C8/C10 witnesses: two files with equal digests
and one with a distinct digest. -/
def wRaws : List RawFile :=
  [⟨"/d/a.txt", "a.txt", 3, 0, true, some "H"⟩,
   ⟨"/d/b.txt", "b.txt", 3, 1, true, some "H"⟩,
   ⟨"/d/c.txt", "c.txt", 4, 2, true, some "K"⟩]

/-- Record the scan builds for `cxRarRaw`. -/
def wRarRec : FileInfo :=
  ⟨"/d/a.rar", "a.rar", 3, ".rar", "Archives", "H", 0, false, false⟩

/-- First record of the duplicate pair the scan of `wRaws` finds. -/
def wRecA : FileInfo :=
  ⟨"/d/a.txt", "a.txt", 3, ".txt", "Documents", "H", 0, false, false⟩

/-- Second record of the duplicate pair the scan of `wRaws` finds. -/
def wRecB : FileInfo :=
  ⟨"/d/b.txt", "b.txt", 3, ".txt", "Documents", "H", 1, false, false⟩

/-! ### General lemmas -/

/-- Every non-empty weighted list contains a pair attaining `maxCount`. -/
lemma exists_maxCount :
    ∀ (l : List (Nat × String)), l ≠ [] → ∃ p ∈ l, p.1 = maxCount l := by
  intro l
  induction l with
  | nil => intro h; exact absurd rfl h
  | cons a t ih =>
    intro _
    rcases eq_or_ne t [] with rfl | ht
    · exact ⟨a, List.mem_cons_self a [], by simp [maxCount]⟩
    · rcases ih ht with ⟨q, hq, hqm⟩
      have hmc : maxCount (a :: t) = max a.1 (maxCount t) := rfl
      rcases Nat.le_total (maxCount t) a.1 with hle | hle
      · exact ⟨a, List.mem_cons_self a t, by rw [hmc]; omega⟩
      · exact ⟨q, List.mem_cons_of_mem a hq, by rw [hmc]; omega⟩

/-- When the maximum count is positive, the default of `firstMaxName`
is irrelevant. -/
lemma firstMaxName_default (l : List (Nat × String)) (hpos : 0 < maxCount l)
    (d1 d2 : String) : firstMaxName l d1 = firstMaxName l d2 := by
  have hne : l ≠ [] := by
    intro h; subst h; simp [maxCount] at hpos
  rcases exists_maxCount l hne with ⟨p, hp, hpm⟩
  have : (l.find? (fun p => p.1 = maxCount l)).isSome := by
    rw [List.find?_isSome]
    exact ⟨p, hp, by simp [hpm]⟩
  unfold firstMaxName
  rcases Option.isSome_iff_exists.mp this with ⟨q, hq⟩
  rw [hq]

/-- The sequential leader chain of `analyzeZipContents` computes the
name of the first pair attaining the maximum count, with the starting
name when no count beats the starting bound. -/
lemma selectDominant_eq :
    ∀ (l : List (Nat × String)) (m : Nat) (dom : String),
      selectDominant l m dom =
        if m < maxCount l then firstMaxName l dom else dom := by
  intro l
  induction l with
  | nil =>
    intro m dom
    simp [selectDominant, maxCount]
  | cons a t ih =>
    intro m dom
    have hmc : maxCount (a :: t) = max a.1 (maxCount t) := rfl
    by_cases h1 : m < a.1
    · rw [selectDominant, if_pos h1, ih]
      by_cases h2 : a.1 < maxCount t
      · rw [if_pos h2]
        have hmax : maxCount (a :: t) = maxCount t := by rw [hmc]; omega
        rw [if_pos (by omega : m < maxCount (a :: t))]
        have hhead : ¬ (a.1 = maxCount (a :: t)) := by rw [hmax]; omega
        have hfind : firstMaxName (a :: t) dom = firstMaxName t dom := by
          unfold firstMaxName
          rw [List.find?_cons_of_neg _ (by simp [hhead]), hmax]
        rw [hfind]
        exact firstMaxName_default t (by omega) a.2 dom
      · rw [if_neg h2]
        have hmax : maxCount (a :: t) = a.1 := by rw [hmc]; omega
        rw [if_pos (by omega : m < maxCount (a :: t))]
        unfold firstMaxName
        rw [List.find?_cons_of_pos _ (by simp [hmax])]
    · rw [selectDominant, if_neg h1, ih]
      by_cases h2 : m < maxCount t
      · rw [if_pos h2]
        have hmax : maxCount (a :: t) = maxCount t := by rw [hmc]; omega
        rw [if_pos (by omega : m < maxCount (a :: t))]
        have hhead : ¬ (a.1 = maxCount (a :: t)) := by rw [hmax]; omega
        have hfind : firstMaxName (a :: t) dom = firstMaxName t dom := by
          unfold firstMaxName
          rw [List.find?_cons_of_neg _ (by simp [hhead]), hmax]
        rw [hfind]
      · rw [if_neg h2]
        rw [if_neg (by rw [hmc]; omega : ¬ m < maxCount (a :: t))]

/-- C4 counterexample: an archive with one image entry and one document
entry ties the two highest buckets, yet the result is "Images", not
"Other" as the claim asserts for ties. -/
theorem analyzeZip_tie_is_Images :
    analyzeZipContents cxTieEntries = "Images" ∧ ("Images" : String) ≠ "Other" := by
  constructor
  · decide
  · decide

/-- C4 amended: `analyzeZipContents` returns the folder of the earliest
bucket (in the fixed order images, documents, videos, audio,
applications, fonts, code, the last two carrying folder "Other")
attaining the maximum entry count over non-directory entries, and
"Other" when every bucket counts zero; a tie therefore resolves to the
earliest tied bucket, not to "Other". -/
theorem analyzeZipContents_eq_dominantSpec (entries : List ZipEntry) :
    analyzeZipContents entries = dominantSpec entries := by
  have key : ∀ (L : List (Nat × String)),
      selectDominant L 0 "Other" =
        if maxCount L = 0 then "Other" else firstMaxName L "Other" := by
    intro L
    rw [selectDominant_eq]
    by_cases h : maxCount L = 0
    · simp [h]
    · simp [h, Nat.pos_of_ne_zero h]
  exact key
    [(countBucket zipImageExts entries, "Images"),
     (countBucket zipDocumentExts entries, "Documents"),
     (countBucket zipVideoExts entries, "Videos"),
     (countBucket zipAudioExts entries, "Music"),
     (countBucket zipApplicationExts entries, "Applications"),
     (countBucket zipFontExts entries, "Other"),
     (countBucket zipCodeExts entries, "Other")]

/-! ### Lemmas about the content-level file map -/

/-- Erasing a path removes it from view. -/
lemma readF_eraseF_same (fm : FileMap) (p : String) :
    readF (eraseF fm p) p = none := by
  induction fm with
  | nil => rfl
  | cons e t ih =>
    by_cases h : e.1 = p
    · simpa [eraseF, h] using ih
    · simpa [eraseF, readF, lookupA, h] using ih

/-- Erasing one path leaves every other path unchanged. -/
lemma readF_eraseF_other (fm : FileMap) (p q : String) (h : p ≠ q) :
    readF (eraseF fm p) q = readF fm q := by
  induction fm with
  | nil => rfl
  | cons e t ih =>
    by_cases he : e.1 = p
    · simpa [eraseF, readF, lookupA, he, h] using ih
    · by_cases hq : e.1 = q
      · simp [eraseF, readF, lookupA, he, hq, Ne.symm h]
      · simpa [eraseF, readF, lookupA, he, hq] using ih

/-- Writing a path makes its content visible. -/
lemma readF_writeF_same (fm : FileMap) (p : String) (d : String) :
    readF (writeF fm p d) p = some d := by
  simp [writeF, readF, lookupA]

/-- Writing one path leaves every other path unchanged. -/
lemma readF_writeF_other (fm : FileMap) (p q : String) (d : String) (h : p ≠ q) :
    readF (writeF fm p d) q = readF fm q := by
  simp only [writeF, readF, lookupA, if_neg h]
  exact readF_eraseF_other fm p q h

/-- C6: the move primitive never loses data: a successful `atomicMove`
leaves the destination holding exactly the source's former content and
removes the source; and when the stream-copy step of the copy-and-delete
fallback fails partway, the source file is left untouched (the
destination may hold partial data). -/
theorem movePrimitive_safe (env : CopyEnv) (fm : FileMap) (src dst : String)
    (hne : src ≠ dst) :
    ((atomicMoveF env fm src dst).2 = true →
      readF (atomicMoveF env fm src dst).1 src = none ∧
      readF (atomicMoveF env fm src dst).1 dst = readF fm src) ∧
    (env.copyOk src dst = false →
      readF (copyAndDelete env fm src dst).1 src = readF fm src) := by
  have hdst : dst ≠ src := fun hcontra => hne hcontra.symm
  constructor
  · intro hok
    rcases hsrc : readF fm src with _ | data
    · exfalso
      simp only [atomicMoveF, hsrc, copyAndDelete] at hok
      exact Bool.false_ne_true hok
    · simp only [atomicMoveF, hsrc] at hok ⊢
      by_cases hr : env.renameOk src dst = true
      · rw [if_pos hr]
        constructor
        · exact readF_eraseF_same _ _
        · show readF (eraseF (writeF fm dst data) src) dst = some data
          rw [readF_eraseF_other _ _ _ hne, readF_writeF_same]
      · rw [if_neg hr] at hok ⊢
        simp only [copyAndDelete, hsrc] at hok ⊢
        by_cases h1 : env.createOk dst = true
        · rw [if_pos h1] at hok ⊢
          by_cases h2 : env.copyOk src dst = true
          · rw [if_pos h2] at hok ⊢
            by_cases h3 : env.syncOk dst = true
            · rw [if_pos h3] at hok ⊢
              by_cases h4 : env.removeOk src = true
              · rw [if_pos h4]
                constructor
                · exact readF_eraseF_same _ _
                · show readF (eraseF (writeF fm dst data) src) dst = some data
                  rw [readF_eraseF_other _ _ _ hne, readF_writeF_same]
              · rw [if_neg h4] at hok
                exact absurd hok (by simp)
            · rw [if_neg h3] at hok
              exact absurd hok (by simp)
          · rw [if_neg h2] at hok
            exact absurd hok (by simp)
        · rw [if_neg h1] at hok
          exact absurd hok (by simp)
  · intro hcopy
    rcases hsrc : readF fm src with _ | data
    · simp [copyAndDelete, hsrc]
    · simp only [copyAndDelete, hsrc]
      have h2 : ¬ (env.copyOk src dst = true) := by
        rw [hcopy]; exact Bool.false_ne_true
      by_cases h1 : env.createOk dst = true
      · rw [if_pos h1, if_neg h2]
        show readF (writeF fm dst (env.truncData data)) src = some data
        rw [readF_writeF_other _ _ _ _ hdst, hsrc]
      · rw [if_neg h1]
        exact hsrc

/-- C6 witness: a concrete successful move and a concrete failed copy. -/
theorem movePrimitive_safe_witness :
    readF (atomicMoveF copyEnvOk wFileMap "/d/a" "/d/b").1 "/d/a" = none ∧
    readF (atomicMoveF copyEnvOk wFileMap "/d/a" "/d/b").1 "/d/b" = some "X" ∧
    readF (copyAndDelete copyEnvBadCopy wFileMap "/d/a" "/d/b").1 "/d/a" = some "X" := by
  have h1 := movePrimitive_safe copyEnvOk wFileMap "/d/a" "/d/b" (by decide)
  have h2 := movePrimitive_safe copyEnvBadCopy wFileMap "/d/a" "/d/b" (by decide)
  exact ⟨(h1.1 (by decide)).1,
         ((h1.1 (by decide)).2).trans (by decide),
         (h2.2 (by decide)).trans (by decide)⟩

/-- C2: evaluating `RemoveDuplicatesByPattern` on a group in which no
member looks original shows that the disposal pass removes every member,
including the newest file the code selects — and announces — as the
keeper: the resulting filesystem holds no member of the group. -/
theorem patternFallback_removes_keeper :
    (removeDuplicatesByPattern envAllOk cxPatternFS false
        [("H", [cxCopyA, cxCopyB])]).files = [] ∧
    isOriginalFile cxCopyA.Name = false ∧
    isOriginalFile cxCopyB.Name = false ∧
    cxCopyA.LastModified < cxCopyB.LastModified := by
  refine ⟨by decide, by decide, by decide, by decide⟩

/-! ### Scanner structure lemmas -/

/-- Unfolding of the scan result's file list. -/
lemma scanEntries_Files (raws : List RawFile) :
    (scanEntries raws).Files =
      ((groupByHash (walkRecords raws)).filter (fun e => 1 < e.2.length)).foldl
        (fun acc e => markGroup acc e.2) (walkRecords raws) := rfl

/-- Unfolding of the scan result's duplicate-group table. -/
lemma scanEntries_Dups (raws : List RawFile) :
    (scanEntries raws).Duplicates =
      (groupByHash (walkRecords raws)).filter (fun e => 1 < e.2.length) := rfl

/-- Unfolding of the scan result's category map. -/
lemma scanEntries_Cats (raws : List RawFile) :
    (scanEntries raws).Categories =
      groupByKey (fun f => f.Category) (walkRecords raws) := rfl

/-- Shape of every record the walk produces: unmarked, and flagged as a
zip exactly when its stored extension is ".zip". -/
lemma mkRecord_shape (raw : RawFile) (r : FileInfo) (h : mkRecord raw = some r) :
    r.IsDuplicate = false ∧ (r.IsZip = true ↔ r.Extension = ".zip") := by
  unfold mkRecord at h
  by_cases c1 : strStartsWith raw.name "." = true
  · rw [if_pos c1] at h; exact absurd h (by simp)
  · rw [if_neg c1] at h
    by_cases c2 : strContains raw.path ".app/Contents/" = true
    · rw [if_pos c2] at h; exact absurd h (by simp)
    · rw [if_neg c2] at h
      by_cases c3 : raw.readable = true
      · rw [if_neg (by simp [c3])] at h
        have hr := Option.some.inj h
        subst hr
        exact ⟨rfl, by simp⟩
      · rw [if_pos (by simp [c3])] at h; exact absurd h (by simp)

/-- Every record the walk produces is unmarked. -/
lemma walkRecords_unmarked (raws : List RawFile) :
    ∀ r ∈ walkRecords raws, r.IsDuplicate = false := by
  intro r hr
  obtain ⟨raw, _, hmk⟩ := List.mem_filterMap.mp (by simpa [walkRecords] using hr)
  exact (mkRecord_shape raw r hmk).1

/-- Members of `markFirst files p` are members of `files`, possibly with
the duplicate flag set. -/
lemma markFirst_mem_shape (files : List FileInfo) (p : String) :
    ∀ r ∈ markFirst files p, ∃ r0 ∈ files, r = r0 ∨ r = markDup r0 := by
  induction files with
  | nil => intro r hr; exact absurd hr (List.not_mem_nil r)
  | cons f t ih =>
    intro r hr
    by_cases h : f.Path = p
    · simp only [markFirst, if_pos h] at hr
      rcases List.mem_cons.mp hr with rfl | hrt
      · exact ⟨f, List.mem_cons_self f t, Or.inr rfl⟩
      · exact ⟨r, List.mem_cons_of_mem f hrt, Or.inl rfl⟩
    · simp only [markFirst, if_neg h] at hr
      rcases List.mem_cons.mp hr with rfl | hrt
      · exact ⟨r, List.mem_cons_self r t, Or.inl rfl⟩
      · obtain ⟨r0, hr0, hc⟩ := ih r hrt
        exact ⟨r0, List.mem_cons_of_mem f hr0, hc⟩

/-- Members of `markGroup files g` are members of `files`, possibly with
the duplicate flag set. -/
lemma markGroup_mem_shape :
    ∀ (g files : List FileInfo), ∀ r ∈ markGroup files g,
      ∃ r0 ∈ files, r = r0 ∨ r = markDup r0 := by
  intro g
  induction g with
  | nil => intro files r hr; exact ⟨r, hr, Or.inl rfl⟩
  | cons x t ih =>
    intro files r hr
    have hg : markGroup files (x :: t) = markGroup (markFirst files x.Path) t := rfl
    rw [hg] at hr
    obtain ⟨r1, hr1, hc1⟩ := ih (markFirst files x.Path) r hr
    obtain ⟨r0, hr0, hc0⟩ := markFirst_mem_shape files x.Path r1 hr1
    refine ⟨r0, hr0, ?_⟩
    rcases hc1 with rfl | rfl <;> rcases hc0 with rfl | rfl
    · exact Or.inl rfl
    · exact Or.inr rfl
    · exact Or.inr rfl
    · exact Or.inr rfl

/-- Members of the full marking pass are members of the starting list,
possibly with the duplicate flag set. -/
lemma markFold_mem_shape :
    ∀ (dups : List (String × List FileInfo)) (files : List FileInfo),
      ∀ r ∈ dups.foldl (fun acc e => markGroup acc e.2) files,
        ∃ r0 ∈ files, r = r0 ∨ r = markDup r0 := by
  intro dups
  induction dups with
  | nil => intro files r hr; exact ⟨r, hr, Or.inl rfl⟩
  | cons e t ih =>
    intro files r hr
    rw [List.foldl_cons] at hr
    obtain ⟨r1, hr1, hc1⟩ := ih (markGroup files e.2) r hr
    obtain ⟨r0, hr0, hc0⟩ := markGroup_mem_shape e.2 files r1 hr1
    refine ⟨r0, hr0, ?_⟩
    rcases hc1 with rfl | rfl <;> rcases hc0 with rfl | rfl
    · exact Or.inl rfl
    · exact Or.inr rfl
    · exact Or.inr rfl
    · exact Or.inr rfl

/-- C5 counterexample: scanning a .rar file yields a record whose
extension ".rar" is a supported archive extension (its category is
"Archives"), yet whose archive flag is false — the flag is not true for
every supported archive type. -/
theorem scanRar_not_flagged :
    (scanEntries [cxRarRaw]).Files.map (fun f => f.Extension) = [".rar"] ∧
    (scanEntries [cxRarRaw]).Files.map (fun f => f.Category) = ["Archives"] ∧
    (scanEntries [cxRarRaw]).Files.map (fun f => f.IsZip) = [false] ∧
    ".rar" ∈ archiveExts := by
  refine ⟨by decide, by decide, by decide, by decide⟩

/-- C5 amended: for every scanned file, the record's archive flag
(`IsZip`) is true exactly when the lower-cased extension equals ".zip";
the five other supported archive extensions are categorised as
"Archives" but never set the flag. -/
theorem isZip_iff_ext_zip (raws : List RawFile) :
    ∀ r ∈ (scanEntries raws).Files, (r.IsZip = true ↔ r.Extension = ".zip") := by
  intro r hr
  rw [scanEntries_Files] at hr
  obtain ⟨r0, hr0, hc⟩ := markFold_mem_shape _ _ r hr
  obtain ⟨raw, _, hmk⟩ := List.mem_filterMap.mp (by simpa [walkRecords] using hr0)
  have hs := mkRecord_shape raw r0 hmk
  rcases hc with rfl | rfl
  · exact hs.2
  · simpa [markDup] using hs.2

/-- C5 amended witness: the concrete .rar record of the fixture scan. -/
theorem isZip_iff_ext_zip_witness :
    wRarRec ∈ (scanEntries [cxRarRaw]).Files ∧
    (wRarRec.IsZip = true ↔ wRarRec.Extension = ".zip") :=
  ⟨by decide, isZip_iff_ext_zip [cxRarRaw] wRarRec (by decide)⟩

/-! ### Membership in grouped maps -/

/-- A file found in a group of `assocAppend m k g` was already in a
group of `m` or is the appended file. -/
lemma assocAppend_mem_val :
    ∀ (m : List (String × List FileInfo)) (k : String) (g : FileInfo)
      (e : String × List FileInfo), e ∈ assocAppend m k g →
      ∀ f ∈ e.2, (∃ e0 ∈ m, f ∈ e0.2) ∨ f = g := by
  intro m
  induction m with
  | nil =>
    intro k g e he f hf
    simp only [assocAppend, List.mem_singleton] at he
    subst he
    simp only [List.mem_singleton] at hf
    exact Or.inr hf
  | cons a t ih =>
    intro k g e he f hf
    by_cases h : a.1 = k
    · simp only [assocAppend, if_pos h] at he
      rcases List.mem_cons.mp he with rfl | het
      · rcases List.mem_append.mp hf with hfa | hfg
        · exact Or.inl ⟨a, List.mem_cons_self a t, hfa⟩
        · exact Or.inr (List.mem_singleton.mp hfg)
      · exact Or.inl ⟨e, List.mem_cons_of_mem a het, hf⟩
    · simp only [assocAppend, if_neg h] at he
      rcases List.mem_cons.mp he with rfl | het
      · exact Or.inl ⟨a, List.mem_cons_self a t, hf⟩
      · rcases ih k g e het f hf with ⟨e0, he0, hf0⟩ | hg
        · exact Or.inl ⟨e0, List.mem_cons_of_mem a he0, hf0⟩
        · exact Or.inr hg

/-- A file found in a group of the grouping fold came from a starting
group or from the processed list. -/
lemma groupFold_mem_val (key : FileInfo → String) :
    ∀ (l : List FileInfo) (m : List (String × List FileInfo))
      (e : String × List FileInfo),
      e ∈ l.foldl (fun m f => assocAppend m (key f) f) m →
      ∀ f ∈ e.2, (∃ e0 ∈ m, f ∈ e0.2) ∨ f ∈ l := by
  intro l
  induction l with
  | nil => intro m e he f hf; exact Or.inl ⟨e, he, hf⟩
  | cons x t ih =>
    intro m e he f hf
    rw [List.foldl_cons] at he
    rcases ih (assocAppend m (key x) x) e he f hf with ⟨e0, he0, hf0⟩ | hft
    · rcases assocAppend_mem_val m (key x) x e0 he0 f hf0 with ⟨e1, he1, hf1⟩ | rfl
      · exact Or.inl ⟨e1, he1, hf1⟩
      · exact Or.inr (List.mem_cons_self f t)
    · exact Or.inr (List.mem_cons_of_mem x hft)

/-- Every file stored in a `groupByKey` group is in the grouped list. -/
lemma groupByKey_mem_val (key : FileInfo → String) (l : List FileInfo)
    (e : String × List FileInfo) (he : e ∈ groupByKey key l) :
    ∀ f ∈ e.2, f ∈ l := by
  intro f hf
  rcases groupFold_mem_val key l [] e he f hf with ⟨e0, he0, _⟩ | hfl
  · exact absurd he0 (List.not_mem_nil e0)
  · exact hfl

/-- C10: the duplicate flag is applied only to the records of the
Scanner's `Files` slice; the copies of the same records held by the
`Categories` map and by the `Duplicates` group table are inserted before
detection runs and always carry `IsDuplicate = false`. -/
theorem mapCopies_unmarked (raws : List RawFile) :
    (∀ e ∈ (scanEntries raws).Categories, ∀ f ∈ e.2, f.IsDuplicate = false) ∧
    (∀ e ∈ (scanEntries raws).Duplicates, ∀ f ∈ e.2, f.IsDuplicate = false) := by
  constructor
  · intro e he f hf
    rw [scanEntries_Cats] at he
    exact walkRecords_unmarked raws f (groupByKey_mem_val _ _ e he f hf)
  · intro e he f hf
    rw [scanEntries_Dups] at he
    have he2 : e ∈ groupByHash (walkRecords raws) := List.mem_of_mem_filter he
    have hf2 : f ∈ (walkRecords raws).filter (fun f => ¬ (f.Hash = "")) :=
      groupByKey_mem_val _ _ e (by simpa [groupByHash] using he2) f hf
    exact walkRecords_unmarked raws f (List.mem_of_mem_filter hf2)

/-- C10 witness: the duplicate pair of the fixture scan is stored
unmarked in the duplicate table while detection marks the `Files`
records. -/
theorem mapCopies_unmarked_witness :
    (("H", [wRecA, wRecB]) ∈ (scanEntries wRaws).Duplicates ∧
      wRecA ∈ [wRecA, wRecB]) ∧ wRecA.IsDuplicate = false :=
  ⟨⟨by decide, by decide⟩,
   (mapCopies_unmarked wRaws).2 ("H", [wRecA, wRecB]) (by decide) wRecA (by decide)⟩

/-! ### Organizer loop lemmas -/

/-- Every executed move the shared inner loop logs names a file of the
processed list as source, found the destination absent, and — when the
in-loop duplicate check is active — concerns a non-duplicate file. -/
lemma moveLoop_log_spec (env : OrgEnv) (dr cd : Bool) (tgt : String) :
    ∀ (files : List FileInfo) (fs : FS) (log : List MoveRec),
      ∀ m ∈ (moveLoop env dr cd tgt files (fs, log)).2,
        m ∈ log ∨ ∃ f ∈ files, m.src = f.Path ∧ m.destExisted = false ∧
          (cd = true → f.IsDuplicate = false) := by
  intro files
  induction files with
  | nil =>
    intro fs log m hm
    exact Or.inl hm
  | cons f rest ih =>
    intro fs log m hm
    have lift : ∀ (fs2 : FS) (log2 : List MoveRec),
        m ∈ (moveLoop env dr cd tgt rest (fs2, log2)).2 →
        m ∈ log2 ∨ ∃ f0 ∈ f :: rest, m.src = f0.Path ∧ m.destExisted = false ∧
          (cd = true → f0.IsDuplicate = false) := by
      intro fs2 log2 hm2
      rcases ih fs2 log2 m hm2 with hl | ⟨f0, hf0, hs⟩
      · exact Or.inl hl
      · exact Or.inr ⟨f0, List.mem_cons_of_mem f hf0, hs⟩
    simp only [moveLoop] at hm
    split at hm
    · exact lift _ _ hm
    · split at hm
      · exact lift _ _ hm
      · split at hm
        · exact lift _ _ hm
        · split at hm
          · exact lift _ _ hm
          · split at hm
            · rename_i h1 h2 h3 h4 h5
              rcases lift _ _ hm with hl | htail
              · rcases List.mem_append.mp hl with hl2 | hl3
                · exact Or.inl hl2
                · have hm2 := List.mem_singleton.mp hl3
                  subst hm2
                  refine Or.inr ⟨f, List.mem_cons_self f rest, rfl, ?_, ?_⟩
                  · simpa using h3
                  · intro hcd
                    subst hcd
                    simpa using h1
              · exact Or.inr htail
            · exact lift _ _ hm

/-- Every executed move of the category loop names a non-duplicate file
of some category group as source and found its destination absent. -/
lemma orgCatsLoop_log (env : OrgEnv) (dr : Bool) (basePath : String)
    (catMap : List (String × String)) :
    ∀ (cats : List (String × List FileInfo)) (fs : FS) (log : List MoveRec),
      ∀ m ∈ (orgCatsLoop env dr basePath catMap cats (fs, log)).2,
        m ∈ log ∨ ∃ e ∈ cats, ∃ f ∈ e.2,
          m.src = f.Path ∧ m.destExisted = false ∧ f.IsDuplicate = false := by
  intro cats
  induction cats with
  | nil => intro fs log m hm; exact Or.inl hm
  | cons e rest ih =>
    intro fs log m hm
    have hcomb : ∀ (fs2 : FS) (log2 : List MoveRec),
        (∀ m2 ∈ log2, m2 ∈ log ∨ ∃ f ∈ e.2,
          m2.src = f.Path ∧ m2.destExisted = false ∧ f.IsDuplicate = false) →
        m ∈ (orgCatsLoop env dr basePath catMap rest (fs2, log2)).2 →
        m ∈ log ∨ ∃ e0 ∈ e :: rest, ∃ f ∈ e0.2,
          m.src = f.Path ∧ m.destExisted = false ∧ f.IsDuplicate = false := by
      intro fs2 log2 hlog2 hm2
      rcases ih fs2 log2 m hm2 with hin | ⟨e0, he0, f, hf, hp⟩
      · rcases hlog2 m hin with h | ⟨f, hf, hp⟩
        · exact Or.inl h
        · exact Or.inr ⟨e, List.mem_cons_self e rest, f, hf, hp⟩
      · exact Or.inr ⟨e0, List.mem_cons_of_mem e he0, f, hf, hp⟩
    have hmv : ∀ (fs2 : FS) (tgt : String),
        ∀ m2 ∈ (moveLoop env dr true tgt e.2 (fs2, log)).2,
          m2 ∈ log ∨ ∃ f ∈ e.2,
            m2.src = f.Path ∧ m2.destExisted = false ∧ f.IsDuplicate = false := by
      intro fs2 tgt m2 hm2
      rcases moveLoop_log_spec env dr true tgt e.2 fs2 log m2 hm2 with h | ⟨f, hf, h1, h2, h3⟩
      · exact Or.inl h
      · exact Or.inr ⟨f, hf, h1, h2, h3 rfl⟩
    simp only [orgCatsLoop] at hm
    split at hm
    · split at hm
      · exact hcomb _ _ (hmv _ _) hm
      · split at hm
        · exact hcomb _ _ (hmv _ _) hm
        · exact hcomb _ _ (fun m2 hm2 => Or.inl hm2) hm
    · split at hm
      · exact hcomb _ _ (hmv _ _) hm
      · exact hcomb _ _ (fun m2 hm2 => Or.inl hm2) hm

/-- Every executed move of the date-group loop names a file of some
date group as source and found its destination absent. -/
lemma dateGroupsLoop_log (env : OrgEnv) (dr : Bool) (basePath : String) :
    ∀ (groups : List (String × List FileInfo)) (fs : FS) (log : List MoveRec),
      ∀ m ∈ (dateGroupsLoop env dr basePath groups (fs, log)).2,
        m ∈ log ∨ ∃ e ∈ groups, ∃ f ∈ e.2,
          m.src = f.Path ∧ m.destExisted = false := by
  intro groups
  induction groups with
  | nil => intro fs log m hm; exact Or.inl hm
  | cons e rest ih =>
    intro fs log m hm
    have hcomb : ∀ (fs2 : FS) (log2 : List MoveRec),
        (∀ m2 ∈ log2, m2 ∈ log ∨ ∃ f ∈ e.2,
          m2.src = f.Path ∧ m2.destExisted = false) →
        m ∈ (dateGroupsLoop env dr basePath rest (fs2, log2)).2 →
        m ∈ log ∨ ∃ e0 ∈ e :: rest, ∃ f ∈ e0.2,
          m.src = f.Path ∧ m.destExisted = false := by
      intro fs2 log2 hlog2 hm2
      rcases ih fs2 log2 m hm2 with hin | ⟨e0, he0, f, hf, hp⟩
      · rcases hlog2 m hin with h | ⟨f, hf, hp⟩
        · exact Or.inl h
        · exact Or.inr ⟨e, List.mem_cons_self e rest, f, hf, hp⟩
      · exact Or.inr ⟨e0, List.mem_cons_of_mem e he0, f, hf, hp⟩
    have hmv : ∀ (fs2 : FS),
        ∀ m2 ∈ (moveLoop env dr false (joinPath basePath e.1) e.2 (fs2, log)).2,
          m2 ∈ log ∨ ∃ f ∈ e.2, m2.src = f.Path ∧ m2.destExisted = false := by
      intro fs2 m2 hm2
      rcases moveLoop_log_spec env dr false _ e.2 fs2 log m2 hm2 with h | ⟨f, hf, h1, h2, _⟩
      · exact Or.inl h
      · exact Or.inr ⟨f, hf, h1, h2⟩
    simp only [dateGroupsLoop] at hm
    split at hm
    · exact hcomb _ _ (hmv _) hm
    · split at hm
      · exact hcomb _ _ (hmv _) hm
      · exact hcomb _ _ (fun m2 hm2 => Or.inl hm2) hm

/-- Every executed move of the size-bucket loop names a non-duplicate
file of the scanned list as source and found its destination absent. -/
lemma sizeCatsLoop_log (env : OrgEnv) (dr : Bool) (basePath : String)
    (files : List FileInfo) :
    ∀ (scats : List (String × Int × Int)) (fs : FS) (log : List MoveRec),
      ∀ m ∈ (sizeCatsLoop env dr basePath files scats (fs, log)).2,
        m ∈ log ∨ ∃ f ∈ files,
          m.src = f.Path ∧ m.destExisted = false ∧ f.IsDuplicate = false := by
  intro scats
  induction scats with
  | nil => intro fs log m hm; exact Or.inl hm
  | cons e rest ih =>
    intro fs log m hm
    have hcomb : ∀ (fs2 : FS) (log2 : List MoveRec),
        (∀ m2 ∈ log2, m2 ∈ log ∨ ∃ f ∈ files,
          m2.src = f.Path ∧ m2.destExisted = false ∧ f.IsDuplicate = false) →
        m ∈ (sizeCatsLoop env dr basePath files rest (fs2, log2)).2 →
        m ∈ log ∨ ∃ f ∈ files,
          m.src = f.Path ∧ m.destExisted = false ∧ f.IsDuplicate = false := by
      intro fs2 log2 hlog2 hm2
      rcases ih fs2 log2 m hm2 with hin | hfound
      · exact hlog2 m hin
      · exact Or.inr hfound
    have hmv : ∀ (fs2 : FS),
        ∀ m2 ∈ (moveLoop env dr false (joinPath basePath e.1)
            (files.filter (fun f => ¬ f.IsDuplicate && inSizeCat e.2.1 e.2.2 f))
            (fs2, log)).2,
          m2 ∈ log ∨ ∃ f ∈ files,
            m2.src = f.Path ∧ m2.destExisted = false ∧ f.IsDuplicate = false := by
      intro fs2 m2 hm2
      rcases moveLoop_log_spec env dr false _ _ fs2 log m2 hm2 with h | ⟨f, hf, h1, h2, _⟩
      · exact Or.inl h
      · have hmem := List.mem_filter.mp hf
        refine Or.inr ⟨f, hmem.1, h1, h2, ?_⟩
        have hb := hmem.2
        simp only [Bool.and_eq_true, decide_eq_true_eq] at hb
        exact Bool.eq_false_iff.mpr hb.1
    simp only [sizeCatsLoop] at hm
    split at hm
    · exact hcomb _ _ (fun m2 hm2 => Or.inl hm2) hm
    · split at hm
      · exact hcomb _ _ (hmv _) hm
      · split at hm
        · exact hcomb _ _ (hmv _) hm
        · exact hcomb _ _ (fun m2 hm2 => Or.inl hm2) hm

/-- C3 counterexample: archive processing performs no
destination-existence check: with "/base/Images/arc.zip" already on
disk, the archive is still moved there and the executed move records
that the destination existed (the prior file is overwritten). -/
theorem processZip_overwrites :
    cxZipFS.files.contains "/base/Images/arc.zip" = true ∧
    (processZipFiles cxZipEnv cxZipFS false "/base"
        [("Archives", [cxZipRec])] defaultCategoryMap).2 =
      [⟨"/base/arc.zip", "/base/Images/arc.zip", true⟩] :=
  ⟨by decide, by decide⟩

/-- C3 amended: for every move performed by one of the three
organization strategies, the destination was checked and found absent
at the moment of the move (an existing destination file is skipped with
a warning and never overwritten); archive processing performs no such
check. -/
theorem strategies_never_overwrite (env : OrgEnv) (fs : FS) (dr : Bool)
    (basePath : String) (cats : List (String × List FileInfo))
    (catMap : List (String × String)) (files : List FileInfo)
    (fmtYM : Int → String) :
    (∀ m ∈ (organizeFiles env fs dr basePath cats catMap).2, m.destExisted = false) ∧
    (∀ m ∈ (organizeByDate env fs dr basePath files fmtYM).2, m.destExisted = false) ∧
    (∀ m ∈ (organizeBySize env fs dr basePath files).2, m.destExisted = false) := by
  refine ⟨?_, ?_, ?_⟩
  · intro m hm
    rcases orgCatsLoop_log env dr basePath catMap cats fs [] m hm with h | ⟨_, _, _, _, _, h2, _⟩
    · exact absurd h (List.not_mem_nil m)
    · exact h2
  · intro m hm
    rcases dateGroupsLoop_log env dr basePath _ fs [] m hm with h | ⟨_, _, _, _, _, h2⟩
    · exact absurd h (List.not_mem_nil m)
    · exact h2
  · intro m hm
    rcases sizeCatsLoop_log env dr basePath files sizeCategories fs [] m hm with h | ⟨_, _, _, h2, _⟩
    · exact absurd h (List.not_mem_nil m)
    · exact h2

/-- C3 amended witness: the fixture strategy move found its destination
absent. -/
theorem strategies_never_overwrite_witness :
    (⟨"/base/x.jpg", "/base/Images/x.jpg", false⟩ : MoveRec) ∈
      (organizeFiles envAllOk wFS false "/base" wCats defaultCategoryMap).2 ∧
    (⟨"/base/x.jpg", "/base/Images/x.jpg", false⟩ : MoveRec).destExisted = false :=
  ⟨by decide,
   (strategies_never_overwrite envAllOk wFS false "/base" wCats defaultCategoryMap [] (fun _ => "")).1
     ⟨"/base/x.jpg", "/base/Images/x.jpg", false⟩ (by decide)⟩

/-! ### Dry-run lemmas -/

/-- Invariant of the grouping fold: every group holds exactly the
processed files with its key, in order; keys are distinct and
non-empty groups; every processed file has a group. -/
def GInv (key : FileInfo → String) (pre : List FileInfo)
    (m : List (String × List FileInfo)) : Prop :=
  (∀ e ∈ m, e.2 = pre.filter (fun f => key f = e.1) ∧ e.2 ≠ []) ∧
  (m.map Prod.fst).Nodup ∧
  (∀ f ∈ pre, ∃ e ∈ m, e.1 = key f)

/-- A lookup misses exactly the keys that are absent. -/
lemma lookupA_none_iff {β : Type} (m : List (String × β)) (k : String) :
    lookupA m k = none ↔ k ∉ m.map Prod.fst := by
  induction m with
  | nil => simp [lookupA]
  | cons a t ih =>
    rw [List.map_cons]
    by_cases h : a.1 = k
    · constructor
      · intro hl
        rw [lookupA, if_pos h] at hl
        exact absurd hl (by simp)
      · intro hnm
        exfalso
        apply hnm
        rw [← h]
        exact List.mem_cons_self _ _
    · rw [lookupA, if_neg h, ih]
      constructor
      · intro hm hc
        rcases List.mem_cons.mp hc with hc1 | hc2
        · exact h hc1.symm
        · exact hm hc2
      · intro hnm hc
        exact hnm (List.mem_cons_of_mem _ hc)

/-- A successful lookup returns a stored binding. -/
lemma lookupA_mem {β : Type} {m : List (String × β)} {k : String} {v : β}
    (h : lookupA m k = some v) : (k, v) ∈ m := by
  induction m with
  | nil => exact absurd h (by simp [lookupA])
  | cons a t ih =>
    by_cases ha : a.1 = k
    · rw [lookupA, if_pos ha] at h
      have hv := Option.some.inj h
      have hkv : (k, v) = a := by
        rw [← ha, ← hv]
      rw [hkv]
      exact List.mem_cons_self a t
    · rw [lookupA, if_neg ha] at h
      exact List.mem_cons_of_mem a (ih h)

/-- Appending under an absent key adds a fresh singleton group at the
end. -/
lemma assocAppend_absent (m : List (String × List FileInfo)) (k : String)
    (g : FileInfo) (h : lookupA m k = none) :
    assocAppend m k g = m ++ [(k, [g])] := by
  induction m with
  | nil => rfl
  | cons a t ih =>
    by_cases ha : a.1 = k
    · rw [lookupA, if_pos ha] at h
      exact absurd h (by simp)
    · rw [lookupA, if_neg ha] at h
      simp only [assocAppend, if_neg ha, List.cons_append]
      rw [ih h]

/-- Appending under a present key extends exactly that key's group. -/
lemma assocAppend_present (m : List (String × List FileInfo)) (k : String)
    (g : FileInfo) (v0 : List FileInfo) (h : lookupA m k = some v0)
    (hnd : (m.map Prod.fst).Nodup) :
    assocAppend m k g =
      m.map (fun e => if e.1 = k then (e.1, e.2 ++ [g]) else e) := by
  induction m with
  | nil => exact absurd h (by simp [lookupA])
  | cons a t ih =>
    rw [List.map_cons] at hnd
    have hnd2 := List.nodup_cons.mp hnd
    by_cases ha : a.1 = k
    · simp only [assocAppend, if_pos ha, List.map_cons, if_pos ha]
      congr 1
      have htid : ∀ e ∈ t, (fun e => if e.1 = k then (e.1, e.2 ++ [g]) else e) e = e := by
        intro e he
        have hek : ¬ (e.1 = k) := by
          intro hc
          apply hnd2.1
          rw [ha, ← hc]
          exact List.mem_map_of_mem Prod.fst he
        simp [hek]
      rw [List.map_congr_left htid]
      exact (List.map_id t).symm
    · simp only [assocAppend, if_neg ha, List.map_cons, if_neg ha]
      congr 1
      rw [lookupA, if_neg ha] at h
      exact ih h hnd2.2

/-- One grouping step preserves the invariant. -/
lemma GInv_step (key : FileInfo → String) (pre : List FileInfo)
    (m : List (String × List FileInfo)) (g : FileInfo) (h : GInv key pre m) :
    GInv key (pre ++ [g]) (assocAppend m (key g) g) := by
  obtain ⟨h1, h2, h3⟩ := h
  rcases hlk : lookupA m (key g) with _ | v0
  · rw [assocAppend_absent m (key g) g hlk]
    have hknotin : key g ∉ m.map Prod.fst := (lookupA_none_iff m (key g)).mp hlk
    refine ⟨?_, ?_, ?_⟩
    · intro e he
      rcases List.mem_append.mp he with hem | hnew
      · have he1 : ¬ (e.1 = key g) := by
          intro hc
          apply hknotin
          rw [← hc]
          exact List.mem_map_of_mem Prod.fst hem
        obtain ⟨hv, hne⟩ := h1 e hem
        refine ⟨?_, hne⟩
        rw [List.filter_append, List.filter_singleton,
          decide_eq_false (fun hc => he1 hc.symm), cond_false, List.append_nil]
        exact hv
      · have he2 : e = (key g, [g]) := List.mem_singleton.mp hnew
        subst he2
        refine ⟨?_, by simp⟩
        have hpre : pre.filter (fun f => decide (key f = key g)) = [] := by
          rw [List.filter_eq_nil_iff]
          intro f hf
          simp only [decide_eq_true_eq]
          intro hc
          obtain ⟨e1, he1, hk1⟩ := h3 f hf
          apply hknotin
          rw [← hc, ← hk1]
          exact List.mem_map_of_mem Prod.fst he1
        show [g] = (pre ++ [g]).filter (fun f => decide (key f = key g))
        rw [List.filter_append, List.filter_singleton,
          decide_eq_true (rfl : key g = key g), cond_true, hpre, List.nil_append]
    · rw [List.map_append]
      rw [List.nodup_append]
      refine ⟨h2, by simp, ?_⟩
      intro x hx hy
      simp only [List.map_cons, List.map_nil, List.mem_singleton] at hy
      subst hy
      exact hknotin hx
    · intro f hf
      rcases List.mem_append.mp hf with hfp | hfg
      · obtain ⟨e, he, hek⟩ := h3 f hfp
        exact ⟨e, List.mem_append_left _ he, hek⟩
      · have hfg2 : f = g := List.mem_singleton.mp hfg
        subst hfg2
        exact ⟨(key f, [f]), List.mem_append_right _ (by simp), rfl⟩
  · rw [assocAppend_present m (key g) g v0 hlk h2]
    have hkin : (key g, v0) ∈ m := lookupA_mem hlk
    refine ⟨?_, ?_, ?_⟩
    · intro e he
      obtain ⟨e0, he0, hphi⟩ := List.mem_map.mp he
      by_cases hk : e0.1 = key g
      · rw [if_pos hk] at hphi
        subst hphi
        obtain ⟨hv, _⟩ := h1 e0 he0
        refine ⟨?_, by simp⟩
        show e0.2 ++ [g] = (pre ++ [g]).filter (fun f => decide (key f = e0.1))
        rw [List.filter_append, List.filter_singleton,
          decide_eq_true hk.symm, cond_true, ← hv]
      · rw [if_neg hk] at hphi
        subst hphi
        obtain ⟨hv, hne⟩ := h1 e0 he0
        refine ⟨?_, hne⟩
        rw [List.filter_append, List.filter_singleton,
          decide_eq_false (fun hc => hk hc.symm), cond_false, List.append_nil]
        exact hv
    · have hkeys : (m.map (fun e => if e.1 = key g then (e.1, e.2 ++ [g]) else e)).map
          Prod.fst = m.map Prod.fst := by
        rw [List.map_map]
        apply List.map_congr_left
        intro e _
        by_cases hk : e.1 = key g <;> simp [hk]
      rw [hkeys]
      exact h2
    · intro f hf
      rcases List.mem_append.mp hf with hfp | hfg
      · obtain ⟨e, he, hek⟩ := h3 f hfp
        refine ⟨(if e.1 = key g then (e.1, e.2 ++ [g]) else e),
          List.mem_map_of_mem _ he, ?_⟩
        by_cases hk : e.1 = key g
        · rw [if_pos hk]
          exact hek
        · rw [if_neg hk]
          exact hek
      · have hfg2 : f = g := List.mem_singleton.mp hfg
        subst hfg2
        refine ⟨(key f, v0 ++ [f]), ?_, rfl⟩
        have hmapped := List.mem_map_of_mem
          (fun e => if e.1 = key f then (e.1, e.2 ++ [f]) else e) hkin
        simpa using hmapped

/-- The grouping fold over a whole list satisfies the invariant. -/
lemma groupByKey_GInv (key : FileInfo → String) (l : List FileInfo) :
    GInv key l (groupByKey key l) := by
  have main : ∀ (l2 pre : List FileInfo) (m : List (String × List FileInfo)),
      GInv key pre m →
      GInv key (pre ++ l2) (l2.foldl (fun m f => assocAppend m (key f) f) m) := by
    intro l2
    induction l2 with
    | nil => intro pre m h; simpa using h
    | cons x t ih =>
      intro pre m h
      rw [List.foldl_cons]
      have hrec := ih (pre ++ [x]) (assocAppend m (key x) x) (GInv_step key pre m x h)
      rwa [List.append_assoc, List.singleton_append] at hrec
  have h0 : GInv key [] [] :=
    ⟨fun e he => absurd he (List.not_mem_nil e), List.nodup_nil,
     fun f hf => absurd hf (List.not_mem_nil f)⟩
  simpa [groupByKey] using main l [] [] h0

/-- Marking preserves the path. -/
lemma markDup_Path (f : FileInfo) : (markDup f).Path = f.Path := rfl

/-- Marking preserves the hash. -/
lemma markDup_Hash (f : FileInfo) : (markDup f).Hash = f.Hash := rfl

/-- Marking twice is marking once. -/
lemma markDup_markDup (f : FileInfo) : markDup (markDup f) = markDup f := rfl

/-- Every group of the hash table has a non-empty key and holds exactly
the scanned files bearing that hash, in scan order. -/
lemma groupByHash_entry (W : List FileInfo) (e : String × List FileInfo)
    (he : e ∈ groupByHash W) :
    e.1 ≠ "" ∧ e.2 = W.filter (fun f => decide (f.Hash = e.1)) := by
  have hg := groupByKey_GInv (fun f => f.Hash) (W.filter (fun f => ¬ (f.Hash = "")))
  obtain ⟨hv, hne⟩ := hg.1 e he
  obtain ⟨f, hf⟩ := List.exists_mem_of_ne_nil e.2 hne
  rw [hv] at hf
  have hf2 := List.mem_filter.mp hf
  have hf3 := List.mem_filter.mp hf2.1
  have hkey : f.Hash = e.1 := of_decide_eq_true hf2.2
  have hne2 : ¬ (f.Hash = "") := of_decide_eq_true hf3.2
  have hene : e.1 ≠ "" := by rw [← hkey]; exact hne2
  refine ⟨hene, ?_⟩
  rw [hv, List.filter_filter]
  apply List.filter_congr
  intro x _
  by_cases hxh : x.Hash = e.1
  · have hx2 : ¬ (x.Hash = "") := by rw [hxh]; exact hene
    simp [hxh, hx2, hene]
  · simp [hxh]

/-- A filter keeping exactly one known element of a duplicate-free list
is that singleton. -/
lemma filter_eq_singleton {α : Type} (l : List α) (p : α → Bool) (a : α)
    (hnd : l.Nodup) (ha : a ∈ l) (hpa : p a = true)
    (huniq : ∀ x ∈ l, p x = true → x = a) :
    l.filter p = [a] := by
  induction l with
  | nil => exact absurd ha (List.not_mem_nil a)
  | cons x t ih =>
    have hnd2 := List.nodup_cons.mp hnd
    rcases List.mem_cons.mp ha with rfl | hat
    · have ht : t.filter p = [] := by
        rw [List.filter_eq_nil_iff]
        intro y hy hpy
        have hya := huniq y (List.mem_cons_of_mem _ hy) hpy
        apply hnd2.1
        rw [← hya]
        exact hy
      rw [List.filter_cons_of_pos hpa, ht]
    · have hxa : ¬ (p x = true) := by
        intro hpx
        have hx := huniq x (List.mem_cons_self x t) hpx
        apply hnd2.1
        rw [hx]
        exact hat
      rw [List.filter_cons_of_neg hxa]
      exact ih hnd2.2 hat (fun y hy hpy => huniq y (List.mem_cons_of_mem _ hy) hpy)

/-- Under unique paths, marking the first record of a path marks every
record of that path. -/
lemma markFirst_eq_map (files : List FileInfo) (p : String)
    (hnd : (files.map (fun f => f.Path)).Nodup) :
    markFirst files p =
      files.map (fun f => if f.Path = p then markDup f else f) := by
  induction files with
  | nil => rfl
  | cons f t ih =>
    rw [List.map_cons] at hnd
    have hnd2 := List.nodup_cons.mp hnd
    by_cases h : f.Path = p
    · simp only [markFirst, if_pos h, List.map_cons]
      have hhead : ({ f with IsDuplicate := true } : FileInfo) = markDup f := rfl
      rw [hhead]
      congr 1
      have htid : ∀ x ∈ t, (if x.Path = p then markDup x else x) = x := by
        intro x hx
        rw [if_neg]
        intro hc
        apply hnd2.1
        rw [h, ← hc]
        exact List.mem_map_of_mem (fun f => f.Path) hx
      rw [List.map_congr_left htid]
      exact (List.map_id t).symm
    · simp only [markFirst, if_neg h, List.map_cons, if_neg h]
      congr 1
      exact ih hnd2.2

/-- Under unique paths, marking a whole group marks exactly the records
whose path occurs in the group. -/
lemma markGroup_eq_map :
    ∀ (g files : List FileInfo), (files.map (fun f => f.Path)).Nodup →
      markGroup files g =
        files.map
          (fun f => if f.Path ∈ g.map (fun x => x.Path) then markDup f else f) := by
  intro g
  induction g with
  | nil =>
    intro files _
    have htid : ∀ f ∈ files,
        (if f.Path ∈ ([] : List FileInfo).map (fun x => x.Path) then markDup f else f)
          = f := by
      intro f _
      rw [if_neg (by simp)]
    show files = _
    rw [List.map_congr_left htid]
    exact (List.map_id files).symm
  | cons x t ih =>
    intro files hnd
    have hstep : markGroup files (x :: t) = markGroup (markFirst files x.Path) t := rfl
    rw [hstep, markFirst_eq_map files x.Path hnd]
    have hpaths2 : (((files.map (fun f => if f.Path = x.Path then markDup f else f)).map
        (fun f => f.Path))).Nodup := by
      rw [List.map_map]
      have hsame : ∀ f ∈ files,
          ((fun f => f.Path) ∘ (fun f => if f.Path = x.Path then markDup f else f)) f
            = f.Path := by
        intro f _
        by_cases h : f.Path = x.Path
        · show (if f.Path = x.Path then markDup f else f).Path = f.Path
          rw [if_pos h, markDup_Path]
        · show (if f.Path = x.Path then markDup f else f).Path = f.Path
          rw [if_neg h]
      rw [List.map_congr_left hsame]
      exact hnd
    rw [ih _ hpaths2, List.map_map]
    apply List.map_congr_left
    intro f _
    show (if (if f.Path = x.Path then markDup f else f).Path ∈ t.map (fun x => x.Path)
        then markDup (if f.Path = x.Path then markDup f else f)
        else (if f.Path = x.Path then markDup f else f)) =
      (if f.Path ∈ (x :: t).map (fun x => x.Path) then markDup f else f)
    by_cases h1 : f.Path = x.Path
    · rw [if_pos h1, markDup_Path]
      by_cases h2 : f.Path ∈ t.map (fun x => x.Path)
      · rw [if_pos h2, markDup_markDup,
          if_pos (by rw [List.map_cons]; exact List.mem_cons_of_mem _ h2)]
      · rw [if_neg h2, if_pos (by rw [List.map_cons, h1]; exact List.mem_cons_self _ _)]
    · rw [if_neg h1]
      by_cases h2 : f.Path ∈ t.map (fun x => x.Path)
      · rw [if_pos h2, if_pos (by rw [List.map_cons]; exact List.mem_cons_of_mem _ h2)]
      · rw [if_neg h2, if_neg (by
          rw [List.map_cons]
          intro hc
          rcases List.mem_cons.mp hc with hc1 | hc2
          · exact h1 hc1
          · exact h2 hc2)]

/-- C8: scanning a tree holding N files of one content (equal digests
h, N at least 2) while every other hashable file has pairwise-distinct
content yields exactly one duplicate group, holding exactly the N
equal-content records; exactly those records are flagged IsDuplicate in
the file sequence, and records with an empty hash (hash failures, and
every other file) are never grouped or flagged. -/
theorem scan_duplicate_grouping (raws : List RawFile) (h : String)
    (hne : h ≠ "")
    (hN : 2 ≤ ((walkRecords raws).filter (fun f => f.Hash = h)).length)
    (hdist : ∀ f ∈ walkRecords raws, ∀ g ∈ walkRecords raws,
      f.Hash ≠ "" → g.Hash ≠ "" → f.Hash ≠ h → g.Hash ≠ h → f ≠ g → f.Hash ≠ g.Hash)
    (hpaths : ((walkRecords raws).map (fun f => f.Path)).Nodup) :
    (scanEntries raws).Duplicates =
      [(h, (walkRecords raws).filter (fun f => f.Hash = h))] ∧
    (scanEntries raws).Files =
      (walkRecords raws).map (fun r => if r.Hash = h then markDup r else r) ∧
    ∀ r ∈ (scanEntries raws).Files, (r.IsDuplicate = true ↔ r.Hash = h) := by
  have hWnd : (walkRecords raws).Nodup := List.Nodup.of_map _ hpaths
  have hfil_ne : (walkRecords raws).filter (fun f => decide (f.Hash = h)) ≠ [] := by
    intro hc
    rw [hc] at hN
    simp at hN
  obtain ⟨f0, hf0⟩ := List.exists_mem_of_ne_nil _ hfil_ne
  have hf0W : f0 ∈ walkRecords raws := (List.mem_filter.mp hf0).1
  have hf0h : f0.Hash = h := of_decide_eq_true (List.mem_filter.mp hf0).2
  have hf0fil : f0 ∈ (walkRecords raws).filter (fun f => ¬ (f.Hash = "")) := by
    apply List.mem_filter.mpr
    refine ⟨hf0W, ?_⟩
    simp [hf0h, hne]
  have hg := groupByKey_GInv (fun f => f.Hash)
    ((walkRecords raws).filter (fun f => ¬ (f.Hash = "")))
  obtain ⟨eh, hehmem, hehkey⟩ := hg.2.2 f0 hf0fil
  have hehval := (groupByHash_entry (walkRecords raws) eh hehmem).2
  obtain ⟨e1, e2⟩ := eh
  dsimp only at hehkey hehval
  have heh1 : e1 = h := by
    rw [hehkey]
    exact hf0h
  rw [heh1] at hehmem hehval
  subst hehval
  have hdups : (groupByHash (walkRecords raws)).filter (fun e => 1 < e.2.length) =
      [(h, (walkRecords raws).filter (fun f => decide (f.Hash = h)))] := by
    refine filter_eq_singleton _ _ _
      (List.Nodup.of_map Prod.fst hg.2.1) hehmem (decide_eq_true ?_) ?_
    · show 1 < ((walkRecords raws).filter (fun f => decide (f.Hash = h))).length
      omega
    intro x hx hpx
    have hxc := groupByHash_entry (walkRecords raws) x hx
    by_cases hxk : x.1 = h
    · obtain ⟨x1, x2⟩ := x
      dsimp only at hxk hxc
      subst hxk
      rw [hxc.2]
    · exfalso
      have hlen : 1 < x.2.length := of_decide_eq_true hpx
      have hx2nd : x.2.Nodup := by
        rw [hxc.2]
        exact hWnd.filter _
      rcases hx2 : x.2 with _ | ⟨a, tail⟩
      · rw [hx2] at hlen
        simp at hlen
      · rcases htail : tail with _ | ⟨b, r⟩
        · rw [hx2, htail] at hlen
          simp at hlen
        · have hamem : a ∈ x.2 := by rw [hx2]; exact List.mem_cons_self a tail
          have hbmem : b ∈ x.2 := by
            rw [hx2, htail]
            exact List.mem_cons_of_mem a (List.mem_cons_self b r)
          have hab : a ≠ b := by
            rw [hx2, htail] at hx2nd
            have hcons := List.nodup_cons.mp hx2nd
            intro hc
            exact hcons.1 (by rw [hc]; exact List.mem_cons_self b r)
          have haW := List.mem_filter.mp (by rw [hxc.2] at hamem; exact hamem)
          have hbW := List.mem_filter.mp (by rw [hxc.2] at hbmem; exact hbmem)
          have hah : a.Hash = x.1 := of_decide_eq_true haW.2
          have hbh : b.Hash = x.1 := of_decide_eq_true hbW.2
          refine hdist a haW.1 b hbW.1 ?_ ?_ ?_ ?_ hab ?_
          · rw [hah]; exact hxc.1
          · rw [hbh]; exact hxc.1
          · rw [hah]; exact hxk
          · rw [hbh]; exact hxk
          · rw [hah, hbh]
  have hFilesEq : (scanEntries raws).Files =
      (walkRecords raws).map (fun r => if r.Hash = h then markDup r else r) := by
    rw [scanEntries_Files, hdups]
    have hfold : ([(h, (walkRecords raws).filter (fun f => decide (f.Hash = h)))] :
        List (String × List FileInfo)).foldl (fun acc e => markGroup acc e.2)
          (walkRecords raws) =
        markGroup (walkRecords raws)
          ((walkRecords raws).filter (fun f => decide (f.Hash = h))) := rfl
    rw [hfold, markGroup_eq_map _ _ hpaths]
    apply List.map_congr_left
    intro f hfW
    by_cases hfh : f.Hash = h
    · rw [if_pos hfh, if_pos ?_]
      have hffil : f ∈ (walkRecords raws).filter (fun f => decide (f.Hash = h)) :=
        List.mem_filter.mpr ⟨hfW, decide_eq_true hfh⟩
      exact List.mem_map_of_mem (fun x => x.Path) hffil
    · rw [if_neg hfh, if_neg ?_]
      intro hc
      obtain ⟨f2, hf2fil, hf2p⟩ := List.mem_map.mp hc
      have hf2W := (List.mem_filter.mp hf2fil).1
      have hf2h : f2.Hash = h := of_decide_eq_true (List.mem_filter.mp hf2fil).2
      have hf2f : f2 = f := List.inj_on_of_nodup_map hpaths hf2W hfW hf2p
      exact hfh (hf2f ▸ hf2h)
  refine ⟨?_, hFilesEq, ?_⟩
  · rw [scanEntries_Dups]
    exact hdups
  · intro r hr
    rw [hFilesEq] at hr
    obtain ⟨r0, hr0W, hr0eq⟩ := List.mem_map.mp hr
    by_cases h0 : r0.Hash = h
    · rw [← hr0eq, if_pos h0]
      constructor
      · intro _
        rw [markDup_Hash, h0]
      · intro _
        rfl
    · rw [← hr0eq, if_neg h0]
      constructor
      · intro hdup
        rw [walkRecords_unmarked raws r0 hr0W] at hdup
        exact absurd hdup (by simp)
      · intro hh
        exact absurd hh h0

/-- C8 witness: the fixture scan with two equal-content files and one
distinct file. -/
theorem scan_duplicate_grouping_witness :
    (scanEntries wRaws).Duplicates =
      [("H", (walkRecords wRaws).filter (fun f => f.Hash = "H"))] ∧
    (scanEntries wRaws).Files =
      (walkRecords wRaws).map (fun r => if r.Hash = "H" then markDup r else r) ∧
    ∀ r ∈ (scanEntries wRaws).Files, (r.IsDuplicate = true ↔ r.Hash = "H") :=
  scan_duplicate_grouping wRaws "H" (by decide) (by decide) (by decide) (by decide)

end FolderElf
